import Mathlib

/-!
Verification of the parallel, resumable firmware range downloader
(`src/main.rs`): byte ranges, the range splitter, the resumption state
store, the scheduler's split-on-completion logic, the worker progress
protocol, and the decrypt-and-verify pipeline.

Shallow embedding conventions: `u64` values are modelled as `Nat`
(subtraction that can wrap in release builds is modelled by `sub64`),
files are modelled as maps from absolute offset to byte, and byte
strings as `List Nat`.
-/

/-- A half-open byte interval `[start, stop)` (Rust `Range<u64>`; the
source field `end` is a Lean keyword, rendered here as `stop`). -/
structure Rg where
  start : Nat
  stop : Nat
deriving DecidableEq, Repr

/-- Wrapping `u64` subtraction `a - b` (two's complement wrap, as in a
release build). -/
def sub64 (a b : Nat) : Nat :=
  (a + 2 ^ 64 - b % 2 ^ 64) % 2 ^ 64

/-- `MIN_CHUNK_SIZE` from `src/main.rs` (1 MiB): minimum download chunk
size per task. -/
def MIN_CHUNK_SIZE : Nat := 1 * 1024 * 1024

/-- Modelled from the spec: `split_range` lives in `samfuslib::range`,
which is not under `src/`. Per spec §4.2: divide `r` into at most `n`
contiguous sub-ranges, each of length `≥ minChunk` except possibly the
last; if `r.length < 2 * minChunk` the result is `[r]`; produced ranges
are contiguous, non-overlapping, and union to `r`. -/
def split_range (r : Rg) (n : Nat) (minChunk : Nat) : List Rg :=
  let len := r.stop - r.start
  if len < 2 * minChunk then
    [r]
  else
    let k := min n (len / minChunk)
    let chunk := len / k
    ((List.range (k - 1)).map
      (fun i => ⟨r.start + i * chunk, r.start + (i + 1) * chunk⟩))
      ++ [⟨r.start + (k - 1) * chunk, r.stop⟩]

theorem split_range_small (r : Rg) (n minChunk : Nat)
    (h : r.stop - r.start < 2 * minChunk) :
    split_range r n minChunk = [r] := by
  simp [split_range, h]

theorem split_range_length_le (r : Rg) (n minChunk : Nat) (hn : 1 ≤ n) :
    (split_range r n minChunk).length ≤ n := by
  by_cases h : r.stop - r.start < 2 * minChunk
  · simp [split_range, h, hn]
  · simp only [split_range, if_neg h]
    simp only [List.length_append, List.length_map, List.length_range,
      List.length_singleton]
    have : min n ((r.stop - r.start) / minChunk) ≤ n := Nat.min_le_left _ _
    omega

/-- When the range is large enough, splitting in two halves it: the
first part is `[start, start + len/2)` and the second `[start + len/2, stop)`. -/
theorem split_range_two (r : Rg) (minChunk : Nat) (hm : 1 ≤ minChunk)
    (h : 2 * minChunk ≤ r.stop - r.start) :
    split_range r 2 minChunk =
      [⟨r.start, r.start + (r.stop - r.start) / 2⟩,
       ⟨r.start + (r.stop - r.start) / 2, r.stop⟩] := by
  have hnot : ¬ (r.stop - r.start < 2 * minChunk) := by omega
  have h2 : 2 ≤ (r.stop - r.start) / minChunk := by
    apply Nat.le_div_iff_mul_le (by omega) |>.2
    omega
  have hk : min 2 ((r.stop - r.start) / minChunk) = 2 := by omega
  simp [split_range, hnot, hk, List.range_succ]

/-- If the splitter returns at least two parts, the range was at least
`2 * minChunk` long. -/
theorem split_range_two_parts (r : Rg) (n minChunk : Nat)
    (h : 2 ≤ (split_range r n minChunk).length) :
    2 * minChunk ≤ r.stop - r.start := by
  by_contra hc
  push_neg at hc
  rw [split_range_small r n minChunk hc] at h
  simp at h

/-- `NumChunks::from_str` from `src/main.rs` lines 501–515, applied to
the already-parsed numeric value (the `u64` parse itself is `std`):
reject `0` and anything above `16`, otherwise accept the value. -/
def numChunks_from_str (n : Nat) : Except String Nat :=
  if n = 0 then
    Except.error "value cannot be 0"
  else if n > 16 then
    Except.error "too many chunks"
  else
    Except.ok n

/-- C10: parsing the parallelism fails for 0 and for every value greater
than 16, succeeds returning the value for 1..=16, and a fresh partition
`split_range(0..size, n, MIN_CHUNK_SIZE)` never has more than 16 ranges
for an accepted `n`. -/
theorem c10_numChunks_bounds :
    (∀ n : Nat, numChunks_from_str n = Except.ok n ↔ 1 ≤ n ∧ n ≤ 16) ∧
    (∀ n : Nat, (∃ e, numChunks_from_str n = Except.error e) ↔ (n = 0 ∨ 16 < n)) ∧
    (∀ size n : Nat, 1 ≤ n → n ≤ 16 →
      (split_range ⟨0, size⟩ n MIN_CHUNK_SIZE).length ≤ 16) := by
  refine ⟨?_, ?_, ?_⟩
  · intro n
    constructor
    · intro h
      by_cases h0 : n = 0
      · simp [numChunks_from_str, h0] at h
      · by_cases h16 : n > 16
        · simp [numChunks_from_str, h0, h16] at h
        · omega
    · intro ⟨h1, h16⟩
      have h0 : ¬ (n = 0) := by omega
      have h16' : ¬ (n > 16) := by omega
      simp [numChunks_from_str, h0, h16']
  · intro n
    constructor
    · intro ⟨e, h⟩
      by_cases h0 : n = 0
      · left; exact h0
      · by_cases h16 : n > 16
        · right; exact h16
        · simp [numChunks_from_str, h0, h16] at h
    · intro h
      rcases h with h0 | h16
      · exact ⟨"value cannot be 0", by simp [numChunks_from_str, h0]⟩
      · refine ⟨"too many chunks", ?_⟩
        have h0 : ¬ (n = 0) := by omega
        simp [numChunks_from_str, h0, h16]
  · intro size n h1 h16
    calc (split_range ⟨0, size⟩ n MIN_CHUNK_SIZE).length ≤ n :=
          split_range_length_le _ _ _ h1
      _ ≤ 16 := h16

/-- Witness for C10 at `n = 4`, `size = 100 MiB`. -/
theorem c10_witness :
    numChunks_from_str 4 = Except.ok 4 ∧
      (split_range ⟨0, 104857600⟩ 4 MIN_CHUNK_SIZE).length ≤ 16 :=
  ⟨(c10_numChunks_bounds.1 4).2 (by decide),
   c10_numChunks_bounds.2.2 104857600 4 (by decide) (by decide)⟩

/-- One iteration of the worker's consume-and-advance step
(`download_range`, `src/main.rs` lines 133–143): given the current range
and the received fragment length, compute `consumed = min(end - start, len)`,
advance `start` by `consumed`, and report `consumed` in the progress
message. Returns the new range and the reported byte count. -/
def workerStep (r : Rg) (fragLen : Nat) : Rg × Nat :=
  let consumed := min (r.stop - r.start) fragLen
  (⟨r.start + consumed, r.stop⟩, consumed)

/-- C6: each worker iteration advances `start` by exactly
`min(end - start, fragment_length)` and reports exactly that amount; an
oversized fragment advances `start` exactly to `end`, never past it. -/
theorem c6_consumed_cap (r : Rg) (fragLen : Nat) (h : r.start ≤ r.stop) :
    (workerStep r fragLen).2 = min (r.stop - r.start) fragLen ∧
    (workerStep r fragLen).1.start = r.start + min (r.stop - r.start) fragLen ∧
    (workerStep r fragLen).1.start ≤ r.stop ∧
    (r.stop - r.start < fragLen → (workerStep r fragLen).1.start = r.stop) := by
  refine ⟨rfl, rfl, ?_, ?_⟩
  · simp only [workerStep]
    omega
  · intro hover
    simp only [workerStep]
    omega

/-- Witness for C6: range `[2, 5)` receiving an oversized 10-byte
fragment consumes 3 bytes and lands exactly on `end = 5`. -/
theorem c6_witness :
    (workerStep ⟨2, 5⟩ 10).2 = min 3 10 ∧
    (workerStep ⟨2, 5⟩ 10).1.start = 2 + min 3 10 ∧
    (workerStep ⟨2, 5⟩ 10).1.start ≤ 5 ∧
    (3 < 10 → (workerStep ⟨2, 5⟩ 10).1.start = 5) :=
  c6_consumed_cap ⟨2, 5⟩ 10 (by decide)

/-- Modelled from the spec: `write_all_at` lives in `src/file.rs`, which
is not under `src/`. Per spec §4.3: write the entire buffer beginning at
the absolute offset, independent of any file cursor. The file is a map
from absolute offset to byte value. -/
def write_all_at (file : Nat → Nat) (data : List Nat) (offset : Nat) :
    Nat → Nat :=
  fun i =>
    if offset ≤ i ∧ i < offset + data.length then data.getD (i - offset) 0
    else file i

/-- The file effect of one worker loop iteration (`download_range`,
`src/main.rs` lines 122–131): the whole fragment is written at the
current `start`, before `consumed` is computed. -/
def workerWrite (file : Nat → Nat) (r : Rg) (data : List Nat) :
    Nat → Nat :=
  write_all_at file data r.start

/-- C9: the worker writes the entire received fragment at offset `start`
— every offset in `[start, start + fragment_length)` receives the
fragment's byte, including offsets at or past the worker's `end`
(writes are not truncated at the range boundary), while offsets outside
that window are untouched. -/
theorem c9_untruncated_write (file : Nat → Nat) (r : Rg) (data : List Nat)
    (i : Nat) (h1 : r.start ≤ i) (h2 : i < r.start + data.length) :
    workerWrite file r data i = data.getD (i - r.start) 0 ∧
    (∀ j, j < r.start ∨ r.start + data.length ≤ j →
      workerWrite file r data j = file j) := by
  constructor
  · simp only [workerWrite, write_all_at]
    rw [if_pos ⟨h1, h2⟩]
  · intro j hj
    simp only [workerWrite, write_all_at]
    rw [if_neg (by omega)]

/-- Witness for C9: range `[1, 2)` with a 3-byte fragment; offset `2`,
which lies at/after `end = 2`, still receives the fragment byte. -/
theorem c9_witness :
    workerWrite (fun _ => 7) ⟨1, 2⟩ [9, 8, 6] 2 = [9, 8, 6].getD (2 - 1) 0 ∧
    (∀ j, j < 1 ∨ 1 + [9, 8, 6].length ≤ j →
      workerWrite (fun _ => 7) ⟨1, 2⟩ [9, 8, 6] j = (fun _ => 7) j) :=
  c9_untruncated_write (fun _ => 7) ⟨1, 2⟩ [9, 8, 6] 2 (by decide) (by decide)

/-- Lexicographic order on `(u64, u64)` pairs: Rust's derived `Ord` for
tuples, used by `Vec::sort` on `DownloadState::remaining`. -/
def pairLe (a b : Nat × Nat) : Prop :=
  a.1 < b.1 ∨ (a.1 = b.1 ∧ a.2 ≤ b.2)

instance instDecPairLe : DecidableRel pairLe := fun a b => by
  unfold pairLe
  exact inferInstance

instance instTotalPairLe : IsTotal (Nat × Nat) pairLe :=
  ⟨by intro a b; unfold pairLe; omega⟩

instance instTransPairLe : IsTrans (Nat × Nat) pairLe :=
  ⟨by intro a b c; unfold pairLe; omega⟩

/-- `s.remaining.sort()` from `src/main.rs` line 711: stable sort of the
`(start, end)` pairs in lexicographic order. -/
def sortState (l : List (Nat × Nat)) : List (Nat × Nat) :=
  List.insertionSort pairLe l

/-- One window of the state validation (`src/main.rs` lines 713–715):
`w[0].0 <= w[0].1 && w[0].1 <= w[1].0 && w[1].0 <= w[1].1 && w[1].1 <= size`. -/
def windowOk (size : Nat) (a b : Nat × Nat) : Bool :=
  decide (a.1 ≤ a.2 ∧ a.2 ≤ b.1 ∧ b.1 ≤ b.2 ∧ b.2 ≤ size)

/-- `remaining.windows(2).all(...)`: every adjacent pair satisfies
`windowOk`; vacuously true for lists with fewer than two entries. -/
def validWindows (size : Nat) : List (Nat × Nat) → Bool
  | a :: b :: rest => windowOk size a b && validWindows size (b :: rest)
  | _ => true

/-- `DownloadState::to_ranges`. -/
def to_ranges (l : List (Nat × Nat)) : List Rg :=
  l.map (fun p => ⟨p.1, p.2⟩)

/-- `DownloadState::from_ranges`. -/
def from_ranges (rs : List Rg) : List (Nat × Nat) :=
  rs.map (fun r => (r.start, r.stop))

/-- Outcome of `DownloadState::read_file` as observed by `main`:
missing file, unparsable file, or a parsed list of pairs. -/
inductive ReadResult where
  | notFound
  | parseError
  | ok (remaining : List (Nat × Nat))
deriving DecidableEq, Repr

/-- What `main` does with the state file (`src/main.rs` lines 707–737). -/
inductive LoadResult where
  | corrupt (msg : String)
  | openError (msg : String)
  | fresh (chunks : List Rg)
  | resume (chunks : List Rg)
deriving DecidableEq, Repr

/-- The corrupt-state message (`src/main.rs` lines 718–721), instructing
the user to delete the state file. -/
def corruptMsg (path : String) : String :=
  "State file is corrupted. Delete to download from scratch: " ++ path

/-- The error context used when `read_file` fails for any reason other
than a missing file (`src/main.rs` lines 733–734). -/
def openErrMsg (path : String) : String :=
  "Error when opening state file: " ++ path

/-- The state-loading branch of `main` (`src/main.rs` lines 707–737):
a missing file falls back to a fresh even partition; any other
`read_file` failure is fatal with `openErrMsg`; a parsed list is sorted
and window-validated, yielding either the resumed chunks or the fatal
corrupt-state message. -/
def loadState (size nChunks : Nat) (path : String) (r : ReadResult) :
    LoadResult :=
  match r with
  | .notFound => .fresh (split_range ⟨0, size⟩ nChunks MIN_CHUNK_SIZE)
  | .parseError => .openError (openErrMsg path)
  | .ok remaining =>
    let t := sortState remaining
    if validWindows size t = true then .resume (to_ranges t)
    else .corrupt (corruptMsg path)

theorem validWindows_iff (size : Nat) (l : List (Nat × Nat)) :
    validWindows size l = true ↔
      ∀ i, i + 1 < l.length →
        ((l.getD i (0, 0)).1 ≤ (l.getD i (0, 0)).2 ∧
         (l.getD i (0, 0)).2 ≤ (l.getD (i + 1) (0, 0)).1 ∧
         (l.getD (i + 1) (0, 0)).1 ≤ (l.getD (i + 1) (0, 0)).2 ∧
         (l.getD (i + 1) (0, 0)).2 ≤ size) := by
  induction l with
  | nil => simp [validWindows]
  | cons a t ih =>
    cases t with
    | nil =>
      simp only [validWindows, List.length_cons, List.length_nil]
      constructor
      · intro _ i hi
        omega
      · intro _
        trivial
    | cons b rest =>
      have hstep : validWindows size (a :: b :: rest) =
          (windowOk size a b && validWindows size (b :: rest)) := rfl
      rw [hstep, Bool.and_eq_true, ih]
      constructor
      · intro ⟨hw, hrec⟩ i hi
        match i with
        | 0 =>
          simp only [windowOk, decide_eq_true_eq] at hw
          simpa using hw
        | j + 1 =>
          have := hrec j (by simpa using hi)
          simpa using this
      · intro h
        constructor
        · have := h 0 (by simp)
          simp only [windowOk, decide_eq_true_eq]
          simpa using this
        · intro j hj
          have := h (j + 1) (by simpa using hj)
          simpa using this

/-- If a list with at least two entries passes the window validation,
every entry satisfies `start ≤ end ≤ size`. -/
theorem validWindows_mem (size : Nat) (l : List (Nat × Nat))
    (h : validWindows size l = true) (h2 : 2 ≤ l.length) :
    ∀ p ∈ l, p.1 ≤ p.2 ∧ p.2 ≤ size := by
  induction l with
  | nil => simp at h2
  | cons a t ih =>
    cases t with
    | nil => simp at h2
    | cons b rest =>
      have hstep : validWindows size (a :: b :: rest) =
          (windowOk size a b && validWindows size (b :: rest)) := rfl
      rw [hstep, Bool.and_eq_true] at h
      obtain ⟨hw, hrec⟩ := h
      simp only [windowOk, decide_eq_true_eq] at hw
      intro p hp
      rcases List.mem_cons.1 hp with rfl | hp'
      · exact ⟨hw.1, by omega⟩
      · cases rest with
        | nil =>
          have hpb : p = b := by simpa using hp'
          subst hpb
          exact ⟨hw.2.2.1, hw.2.2.2⟩
        | cons c rest' =>
          exact ih hrec (by simp) p hp'

theorem sortState_perm (l : List (Nat × Nat)) : (sortState l).Perm l :=
  List.perm_insertionSort pairLe l

/-- C2 (amended): the program rejects a loaded state file with the
corrupt-state message iff the sorted sequence violates
`r[i].start ≤ r[i].end ≤ r[i+1].start ≤ r[i+1].end ≤ size` for some
adjacent index `i`; since the check runs over `windows(2)`, a list with
at most one entry is always accepted regardless of its bounds, while a
list with at least two entries containing any entry with
`start > end` or `end > size` is rejected. -/
theorem c2_state_validation (size n : Nat) (path : String)
    (l : List (Nat × Nat)) :
    (loadState size n path (.ok l) = .corrupt (corruptMsg path) ↔
      ∃ i, i + 1 < (sortState l).length ∧
        ¬ (((sortState l).getD i (0, 0)).1 ≤ ((sortState l).getD i (0, 0)).2 ∧
           ((sortState l).getD i (0, 0)).2 ≤ ((sortState l).getD (i + 1) (0, 0)).1 ∧
           ((sortState l).getD (i + 1) (0, 0)).1 ≤ ((sortState l).getD (i + 1) (0, 0)).2 ∧
           ((sortState l).getD (i + 1) (0, 0)).2 ≤ size)) ∧
    (l.length ≤ 1 →
      loadState size n path (.ok l) = .resume (to_ranges (sortState l))) ∧
    (2 ≤ l.length → (∃ p ∈ l, ¬ (p.1 ≤ p.2 ∧ p.2 ≤ size)) →
      loadState size n path (.ok l) = .corrupt (corruptMsg path)) := by
  refine ⟨?_, ?_, ?_⟩
  · by_cases hv : validWindows size (sortState l) = true
    · simp only [loadState, hv, if_true]
      constructor
      · intro h
        exact absurd h (by simp)
      · intro ⟨i, hi, hbad⟩
        exact absurd ((validWindows_iff size (sortState l)).1 hv i hi) hbad
    · simp only [loadState, hv, if_false]
      constructor
      · intro _
        rw [validWindows_iff] at hv
        push_neg at hv
        obtain ⟨i, hi, hbad⟩ := hv
        refine ⟨i, hi, fun hc => ?_⟩
        have := hbad hc.1 hc.2.1 hc.2.2.1
        omega
      · intro _
        rfl
  · intro hlen
    have hslen : (sortState l).length ≤ 1 := by
      rw [(sortState_perm l).length_eq]
      exact hlen
    have hv : validWindows size (sortState l) = true := by
      match hs : sortState l with
      | [] => rfl
      | [x] => rfl
      | x :: y :: rest =>
        rw [hs] at hslen
        simp at hslen
    simp [loadState, hv]
  · intro hlen ⟨p, hp, hbad⟩
    by_cases hv : validWindows size (sortState l) = true
    · have hmem : p ∈ sortState l := (sortState_perm l).mem_iff.2 hp
      have hslen : 2 ≤ (sortState l).length := by
        rw [(sortState_perm l).length_eq]
        exact hlen
      exact absurd (validWindows_mem size (sortState l) hv hslen p hmem) hbad
    · simp [loadState, hv]

/-- C2 counterexample: the single-entry list `[(5, 3)]` has
`start > end`, yet the validation accepts it (windows of size 2 are
vacuous on one element), so the claim that every loaded list violating
the bounds is rejected is false. -/
theorem c2_counterexample :
    loadState 10 4 "fw.state" (.ok [(5, 3)]) = .resume [⟨5, 3⟩] ∧
      ¬ (5 ≤ 3) := by
  constructor
  · decide
  · decide

/-- Witness for C2: a two-entry list containing `(5, 3)` with
`start > end` is rejected with the corrupt-state message. -/
theorem c2_witness :
    loadState 10 4 "fw.state" (.ok [(0, 2), (5, 3)]) =
      .corrupt (corruptMsg "fw.state") :=
  (c2_state_validation 10 4 "fw.state" [(0, 2), (5, 3)]).2.2 (by decide)
    ⟨(5, 3), by decide, by decide⟩

/-- C8 (amended): a state file that exists but fails to parse is fatal —
the run aborts with the open-error context naming the state file, never
silently restarting from scratch (only a missing file falls back to a
fresh partition) — but the message is `openErrMsg`, not the
corrupt-state delete instruction, which is reserved for
range-validation failures. -/
theorem c8_parse_error_fatal (size n : Nat) (path : String) :
    loadState size n path .parseError = .openError (openErrMsg path) ∧
    (∀ chunks, loadState size n path .parseError ≠ .fresh chunks) ∧
    (∀ chunks, loadState size n path .parseError ≠ .resume chunks) ∧
    (∀ msg, loadState size n path .parseError ≠ .corrupt msg) ∧
    loadState size n path .notFound =
      .fresh (split_range ⟨0, size⟩ n MIN_CHUNK_SIZE) := by
  refine ⟨rfl, ?_, ?_, ?_, rfl⟩ <;> intro x <;> simp [loadState]

/-- C8 counterexample: on a parse failure the program emits the
open-error message, which is not the corrupt-state message instructing
the user to delete the file. -/
theorem c8_counterexample :
    loadState 100 4 "fw.state" .parseError = .openError (openErrMsg "fw.state") ∧
    loadState 100 4 "fw.state" .parseError ≠ .corrupt (corruptMsg "fw.state") ∧
    openErrMsg "fw.state" ≠ corruptMsg "fw.state" := by
  refine ⟨by decide, by decide, by decide⟩

/-- Witness for C8 at a concrete size and path. -/
theorem c8_witness :
    loadState 100 4 "p" .parseError = .openError (openErrMsg "p") ∧
    loadState 100 4 "p" .parseError ≠ .fresh [] ∧
    loadState 100 4 "p" .parseError ≠ .corrupt (corruptMsg "p") :=
  ⟨(c8_parse_error_fatal 100 4 "p").1,
   (c8_parse_error_fatal 100 4 "p").2.1 [],
   (c8_parse_error_fatal 100 4 "p").2.2.2.1 (corruptMsg "p")⟩

/-- Ordering by `start` only, used by the spec's canonicalize. -/
def startLe (a b : Rg) : Prop := a.start ≤ b.start

instance instDecStartLe : DecidableRel startLe := fun a b => by
  unfold startLe
  exact inferInstance

/-- Modelled from the spec's words, for comparison with the source:
"canonicalize sorts and drops empty ranges" — sort the ranges by
`start` and drop ranges with `start == end`. -/
def canonicalize (S : List Rg) : List Rg :=
  List.insertionSort startLe (S.filter (fun r => decide (r.start ≠ r.stop)))

/-- What loading the state produced by saving `S` does: `save`
serializes `from_ranges S` (`DownloadState::from_ranges` +
`write_file`, the JSON transport being lossless), and the next run's
load path — `loadState`, embedding `main` lines 707–737 including the
`windows(2)` validation and corrupt abort — parses the pairs back,
sorts them, validates them against the firmware size, and either
aborts or resumes on `to_ranges` of the sorted list. -/
def loadAfterSave (size nChunks : Nat) (path : String) (S : List Rg) :
    LoadResult :=
  loadState size nChunks path (.ok (from_ranges S))

theorem to_ranges_from_ranges (S : List Rg) : to_ranges (from_ranges S) = S := by
  simp only [to_ranges, from_ranges, List.map_map]
  exact List.map_id S

/-- The chunk list `main` resumes on when validation passes: `S`
sorted lexicographically by `(start, end)` — a permutation of `S`, in
which empty ranges are preserved. -/
theorem sorted_chunks_spec (S : List Rg) :
    (to_ranges (sortState (from_ranges S))).Perm S ∧
    List.Pairwise
      (fun a b : Rg =>
        a.start < b.start ∨ (a.start = b.start ∧ a.stop ≤ b.stop))
      (to_ranges (sortState (from_ranges S))) ∧
    (∀ r ∈ S, r.start = r.stop →
      r ∈ to_ranges (sortState (from_ranges S))) := by
  have hperm : (to_ranges (sortState (from_ranges S))).Perm S := by
    have h1 : (sortState (from_ranges S)).Perm (from_ranges S) :=
      sortState_perm _
    have h2 := h1.map (fun p : Nat × Nat => (⟨p.1, p.2⟩ : Rg))
    rw [show List.map (fun p : Nat × Nat => (⟨p.1, p.2⟩ : Rg))
          (from_ranges S) = to_ranges (from_ranges S) from rfl,
        to_ranges_from_ranges] at h2
    exact h2
  refine ⟨hperm, ?_, fun r hr _ => hperm.mem_iff.2 hr⟩
  have hs : List.Sorted pairLe (sortState (from_ranges S)) :=
    List.sorted_insertionSort pairLe _
  show List.Pairwise _ (List.map (fun p : Nat × Nat => (⟨p.1, p.2⟩ : Rg))
    (sortState (from_ranges S)))
  rw [List.pairwise_map]
  exact hs

/-- C5 (amended): loading the state produced by saving `S` follows
`main`'s load path: the saved pairs, sorted lexicographically by
`(start, end)`, are window-validated against the firmware size. If
validation fails, the program aborts with the corrupt-state error
instead of yielding chunks; if it passes, the resumed chunks are `S`
sorted lexicographically — a permutation of `S` in which empty ranges
are preserved, not dropped — so a successful load differs from the
spec's `canonicalize(S)` whenever `S` contains an empty range. -/
theorem c5_roundtrip (size n : Nat) (path : String) (S : List Rg) :
    (validWindows size (sortState (from_ranges S)) = true →
      loadAfterSave size n path S =
        .resume (to_ranges (sortState (from_ranges S))) ∧
      (to_ranges (sortState (from_ranges S))).Perm S ∧
      List.Pairwise
        (fun a b : Rg =>
          a.start < b.start ∨ (a.start = b.start ∧ a.stop ≤ b.stop))
        (to_ranges (sortState (from_ranges S))) ∧
      (∀ r ∈ S, r.start = r.stop →
        r ∈ to_ranges (sortState (from_ranges S)))) ∧
    (validWindows size (sortState (from_ranges S)) = false →
      loadAfterSave size n path S = .corrupt (corruptMsg path)) := by
  constructor
  · intro hv
    obtain ⟨h1, h2, h3⟩ := sorted_chunks_spec S
    refine ⟨?_, h1, h2, h3⟩
    simp [loadAfterSave, loadState, hv]
  · intro hv
    simp [loadAfterSave, loadState, hv]

/-- C5 counterexample: for `S = [[3, 3)]` the window validation is
vacuous, so the load resumes on `[[3, 3)]` itself, while
`canonicalize` drops the empty range — the program does not yield
`canonicalize(S)`; and for the overlapping `S = [[0, 5), [3, 8)]` the
program aborts with the corrupt-state error instead of yielding any
chunk list at all. -/
theorem c5_counterexample :
    loadAfterSave 10 4 "fw.state" [⟨3, 3⟩] = .resume [⟨3, 3⟩] ∧
    canonicalize [⟨3, 3⟩] = [] ∧
    loadAfterSave 10 4 "fw.state" [⟨3, 3⟩] ≠
      .resume (canonicalize [⟨3, 3⟩]) ∧
    loadAfterSave 10 4 "fw.state" [⟨0, 5⟩, ⟨3, 8⟩] =
      .corrupt (corruptMsg "fw.state") := by
  refine ⟨by decide, by decide, by decide, by decide⟩

/-- Witness for C5 at `S = [[3, 3), [1, 2)]`, whose sorted pairs pass
the validation. -/
theorem c5_witness :
    loadAfterSave 10 4 "fw.state" [⟨3, 3⟩, ⟨1, 2⟩] =
      .resume (to_ranges (sortState (from_ranges [⟨3, 3⟩, ⟨1, 2⟩]))) ∧
    (to_ranges (sortState (from_ranges [⟨3, 3⟩, ⟨1, 2⟩]))).Perm
      [⟨3, 3⟩, ⟨1, 2⟩] ∧
    List.Pairwise
      (fun a b : Rg =>
        a.start < b.start ∨ (a.start = b.start ∧ a.stop ≤ b.stop))
      (to_ranges (sortState (from_ranges [⟨3, 3⟩, ⟨1, 2⟩]))) ∧
    (∀ r ∈ [(⟨3, 3⟩ : Rg), ⟨1, 2⟩], r.start = r.stop →
      r ∈ to_ranges (sortState (from_ranges [⟨3, 3⟩, ⟨1, 2⟩]))) :=
  (c5_roundtrip 10 4 "fw.state" [⟨3, 3⟩, ⟨1, 2⟩]).1 (by decide)

theorem sub64_eq_sub (a b : Nat) (hle : b ≤ a) (ha : a < 2 ^ 64) :
    sub64 a b = a - b := by
  unfold sub64
  omega

/-- The residual computed when the scheduler loop exits
(`download_chunks`, `src/main.rs` lines 321–324): keep the task ranges
with `end - start > 0` (u64 subtraction). -/
def incompleteRanges (taskRanges : List Rg) : List Rg :=
  taskRanges.filter (fun r => decide (0 < sub64 r.stop r.start))

/-- The orchestration-level outcome after `download_chunks` returns
(`main`, `src/main.rs` lines 754–763): which state list was persisted,
whether the state file was deleted, whether the run proceeds to
decryption, and the user-visible error. -/
structure PostDlOutcome where
  stateWritten : Option (List (Nat × Nat))
  stateDeleted : Bool
  proceedToDecrypt : Bool
  errMsg : Option String
deriving DecidableEq, Repr

/-- `main` after the download phase: a non-empty residual is persisted
and the run exits with the interrupted error; an empty residual deletes
the state file and the run proceeds to decryption. -/
def afterDownload (remaining : List Rg) : PostDlOutcome :=
  if remaining.isEmpty then
    ⟨none, true, true, none⟩
  else
    ⟨some (from_ranges remaining), false, false,
      some "Download was interrupted. To resume, rerun the current command."⟩

/-- C7: for well-formed task ranges the residual is exactly the set of
ranges with `end > start`; a non-empty residual is persisted to the
state file and the run exits with the interrupted error, while an empty
residual deletes the state file and proceeds to decryption. -/
theorem c7_residual (taskRanges : List Rg)
    (hwf : ∀ r ∈ taskRanges, r.start ≤ r.stop ∧ r.stop < 2 ^ 64) :
    incompleteRanges taskRanges =
      taskRanges.filter (fun r => decide (r.start < r.stop)) ∧
    (incompleteRanges taskRanges ≠ [] →
      afterDownload (incompleteRanges taskRanges) =
        ⟨some (from_ranges (incompleteRanges taskRanges)), false, false,
         some "Download was interrupted. To resume, rerun the current command."⟩) ∧
    (incompleteRanges taskRanges = [] →
      afterDownload (incompleteRanges taskRanges) = ⟨none, true, true, none⟩) := by
  refine ⟨?_, ?_, ?_⟩
  · apply List.filter_congr
    intro r hr
    have ⟨h1, h2⟩ := hwf r hr
    rw [decide_eq_decide]
    rw [sub64_eq_sub r.stop r.start h1 h2]
    omega
  · intro hne
    have : (incompleteRanges taskRanges).isEmpty = false := by
      cases h : incompleteRanges taskRanges with
      | nil => exact absurd h hne
      | cons a t => rfl
    simp [afterDownload, this]
  · intro he
    simp [afterDownload, he]

/-- Witness for C7: ranges `[1, 1)` (done) and `[2, 5)` (unfinished)
leave exactly `[2, 5)` as residual, which is persisted with the
interrupted error. -/
theorem c7_witness :
    incompleteRanges [⟨1, 1⟩, ⟨2, 5⟩] =
      [(⟨1, 1⟩ : Rg), ⟨2, 5⟩].filter (fun r => decide (r.start < r.stop)) ∧
    (incompleteRanges [⟨1, 1⟩, ⟨2, 5⟩] ≠ [] →
      afterDownload (incompleteRanges [⟨1, 1⟩, ⟨2, 5⟩]) =
        ⟨some (from_ranges (incompleteRanges [⟨1, 1⟩, ⟨2, 5⟩])), false, false,
         some "Download was interrupted. To resume, rerun the current command."⟩) ∧
    (incompleteRanges [⟨1, 1⟩, ⟨2, 5⟩] = [] →
      afterDownload (incompleteRanges [⟨1, 1⟩, ⟨2, 5⟩]) = ⟨none, true, true, none⟩) :=
  c7_residual [⟨1, 1⟩, ⟨2, 5⟩] (by decide)

/-- One bit step of reflected CRC-32 (polynomial `0xEDB88320`), the
algorithm implemented by the `crc32fast::Hasher` used in
`crc32_and_decrypt`. -/
def crcBit (c : Nat) : Nat :=
  if c % 2 = 1 then (c / 2) ^^^ 0xEDB88320 else c / 2

/-- Absorb one byte into the CRC-32 accumulator. -/
def crcByte (c b : Nat) : Nat :=
  crcBit^[8] (c ^^^ b % 256)

/-- `Hasher::update`: absorb a byte string. -/
def crc32Update (c : Nat) (l : List Nat) : Nat :=
  l.foldl crcByte c

/-- `Hasher::new` + `update` + `finalize`: the CRC-32 of a byte string. -/
def crc32 (l : List Nat) : Nat :=
  crc32Update 0xFFFFFFFF l ^^^ 0xFFFFFFFF

/-- The chunked loop of `crc32_and_decrypt` (`src/main.rs` lines
360–381): take up to 1 MiB of remaining ciphertext, update the hasher
over the ciphertext chunk, then decrypt the chunk in place and append
the plaintext to the output file. -/
def crcDecLoop (c : Nat) (out : List Nat) (input : List Nat)
    (decrypt : List Nat → List Nat) : Nat × List Nat :=
  match input with
  | [] => (c, out)
  | x :: xs =>
    let chunk := (x :: xs).take 1048576
    let rest := (x :: xs).drop 1048576
    crcDecLoop (crc32Update c chunk) (out ++ decrypt chunk) rest decrypt
termination_by input.length
decreasing_by
  simp only [List.length_drop, List.length_cons]
  omega

/-- `crc32_and_decrypt` (`src/main.rs` lines 347–384): returns the
finalized CRC-32 of the input (ciphertext) bytes and the decrypted
output bytes. -/
def crc32_and_decrypt (input : List Nat) (decrypt : List Nat → List Nat) :
    Nat × List Nat :=
  let r := crcDecLoop 0xFFFFFFFF [] input decrypt
  (r.1 ^^^ 0xFFFFFFFF, r.2)

inductive DecryptError where
  | checksumMismatch (actual expected : Nat)
deriving DecidableEq, Repr

/-- `decrypt_firmware` (`src/main.rs` lines 388–413): run
`crc32_and_decrypt` and fail with the checksum-mismatch error iff the
accumulated CRC-32 differs from the expected `info.crc`. -/
def decrypt_firmware (input : List Nat) (expectedCrc : Nat)
    (decrypt : List Nat → List Nat) : Except DecryptError (List Nat) :=
  let r := crc32_and_decrypt input decrypt
  if r.1 ≠ expectedCrc then
    Except.error (.checksumMismatch r.1 expectedCrc)
  else
    Except.ok r.2

/-- The filesystem effects of `main` after `decrypt_firmware`
(`src/main.rs` lines 766–780): whether the encrypted download file was
deleted, whether the temp file was renamed onto the final output path,
and whether the run failed. -/
structure FinalizeOutcome where
  downloadDeleted : Bool
  renamedToFinal : Bool
  failed : Bool
deriving DecidableEq, Repr

/-- On a decrypt error the `?` in `main` propagates immediately: the
encrypted download file is not deleted and the temp file is never
renamed onto the final path (it is simply dropped). On success the
download file is deleted unless `--keep-encrypted`, and the temp file
is atomically renamed to the final output. -/
def finalizeAfterDecrypt (res : Except DecryptError (List Nat))
    (keepEncrypted : Bool) : FinalizeOutcome :=
  match res with
  | .error _ => ⟨false, false, true⟩
  | .ok _ => ⟨!keepEncrypted, true, false⟩

theorem crcDecLoop_fst_aux (n : Nat) :
    ∀ (input : List Nat), input.length ≤ n → ∀ (c : Nat) (out : List Nat)
      (decrypt : List Nat → List Nat),
      (crcDecLoop c out input decrypt).1 = crc32Update c input := by
  induction n with
  | zero =>
    intro input hlen c out decrypt
    match input with
    | [] =>
      rw [crcDecLoop]
      rfl
  | succ n ih =>
    intro input hlen c out decrypt
    match input with
    | [] =>
      rw [crcDecLoop]
      rfl
    | x :: xs =>
      rw [crcDecLoop]
      simp only [List.length_cons] at hlen
      rw [ih ((x :: xs).drop 1048576)
        (by simp only [List.length_drop, List.length_cons]; omega) _ _ _]
      rw [show crc32Update (crc32Update c ((x :: xs).take 1048576))
            ((x :: xs).drop 1048576) =
          crc32Update c ((x :: xs).take 1048576 ++ (x :: xs).drop 1048576) from
        (List.foldl_append ..).symm]
      rw [List.take_append_drop]

theorem crcDecLoop_fst (input : List Nat) (c : Nat) (out : List Nat)
    (decrypt : List Nat → List Nat) :
    (crcDecLoop c out input decrypt).1 = crc32Update c input :=
  crcDecLoop_fst_aux input.length input (Nat.le_refl _) c out decrypt

/-- C3: `decrypt_firmware` fails with the checksum-mismatch error iff
the CRC-32 accumulated over the ciphertext bytes — computed in the same
single pass, before in-place decryption, hence independent of the
cipher — differs from the expected checksum; and on that error the
temp file is never renamed onto the final output path and the
encrypted download file is not deleted. -/
theorem c3_checksum_gate (input : List Nat) (expectedCrc : Nat)
    (decrypt : List Nat → List Nat) (keepEncrypted : Bool) :
    ((∃ a e, decrypt_firmware input expectedCrc decrypt =
        Except.error (.checksumMismatch a e)) ↔ crc32 input ≠ expectedCrc) ∧
    (crc32_and_decrypt input decrypt).1 = crc32 input ∧
    (crc32 input ≠ expectedCrc →
      finalizeAfterDecrypt (decrypt_firmware input expectedCrc decrypt)
        keepEncrypted = ⟨false, false, true⟩) ∧
    (crc32 input = expectedCrc →
      decrypt_firmware input expectedCrc decrypt =
        Except.ok (crc32_and_decrypt input decrypt).2) := by
  have hfst : (crc32_and_decrypt input decrypt).1 = crc32 input := by
    simp only [crc32_and_decrypt, crc32]
    rw [crcDecLoop_fst]
  by_cases h : crc32 input = expectedCrc
  · refine ⟨?_, hfst, fun hc => absurd h hc, fun _ => ?_⟩
    · constructor
      · intro ⟨a, e, he⟩
        simp only [decrypt_firmware, hfst, h, ite_not] at he
        simp at he
      · intro hc
        exact absurd h hc
    · simp only [decrypt_firmware, hfst, h, ite_not]
      simp
  · refine ⟨?_, hfst, fun _ => ?_, fun hc => absurd hc h⟩
    · constructor
      · intro _
        exact h
      · intro _
        refine ⟨crc32 input, expectedCrc, ?_⟩
        simp only [decrypt_firmware, hfst]
        rw [if_pos h]
    · have hd : decrypt_firmware input expectedCrc decrypt =
          Except.error (.checksumMismatch (crc32 input) expectedCrc) := by
        simp only [decrypt_firmware, hfst]
        rw [if_pos h]
      rw [hd]
      rfl

/-- Witness for C3: three ciphertext bytes whose CRC-32 is not `0`
trigger the mismatch error, and the finalize step neither deletes the
download nor creates the final output. -/
theorem c3_witness :
    (∃ a e, decrypt_firmware [1, 2, 3] 0 id =
        Except.error (.checksumMismatch a e)) ∧
    finalizeAfterDecrypt (decrypt_firmware [1, 2, 3] 0 id) false =
      ⟨false, false, true⟩ :=
  ⟨(c3_checksum_gate [1, 2, 3] 0 id false).1.2 (by decide),
   (c3_checksum_gate [1, 2, 3] 0 id false).2.2.1 (by decide)⟩

/-- The `max_by_key` key of a task range, `s.end - s.start` in u64
arithmetic (`src/main.rs` line 263). -/
def rgKey (r : Rg) : Nat := sub64 r.stop r.start

/-- Accumulator walk of `iter().max_by_key(...)`: Rust returns the
*last* of several equally-maximal elements, so ties replace the
accumulator. Carries the index and key of the current best. -/
def lastArgmaxAux (l : List Rg) (i : Nat) (acc : Option (Nat × Nat)) :
    Option (Nat × Nat) :=
  match l with
  | [] => acc
  | r :: rest =>
    let k := rgKey r
    let acc' :=
      match acc with
      | none => some (i, k)
      | some (j, kj) => if kj ≤ k then some (i, k) else some (j, kj)
    lastArgmaxAux rest (i + 1) acc'

/-- Index of the element `task_ranges.iter_mut().max_by_key(|s| s.end - s.start)`
would yield; `none` exactly when the list is empty (where the source
`unwrap()` would panic). -/
def lastArgmax (l : List Rg) : Option Nat :=
  (lastArgmaxAux l 0 none).map (·.1)

theorem lastArgmaxAux_some_spec (l : List Rg) :
    ∀ (i j₀ k₀ : Nat),
      ∃ out, lastArgmaxAux l i (some (j₀, k₀)) = some out ∧
        (out = (j₀, k₀) ∨
          ∃ m, m < l.length ∧ out = (i + m, rgKey (l.getD m ⟨0, 0⟩))) ∧
        k₀ ≤ out.2 ∧
        (∀ m', m' < l.length → rgKey (l.getD m' ⟨0, 0⟩) ≤ out.2) := by
  induction l with
  | nil =>
    intro i j₀ k₀
    refine ⟨(j₀, k₀), rfl, Or.inl rfl, Nat.le_refl _, ?_⟩
    intro m' hm'
    simp at hm'
  | cons r rest ih =>
    intro i j₀ k₀
    by_cases hle : k₀ ≤ rgKey r
    · obtain ⟨out, hout, hwhere, hk, hmax⟩ := ih (i + 1) i (rgKey r)
      refine ⟨out, ?_, ?_, Nat.le_trans hle hk, ?_⟩
      · rw [show lastArgmaxAux (r :: rest) i (some (j₀, k₀)) =
            lastArgmaxAux rest (i + 1) (some (i, rgKey r)) from by
          simp [lastArgmaxAux, hle]]
        exact hout
      · rcases hwhere with heq | ⟨m, hm, heq⟩
        · exact Or.inr ⟨0, by simp, by simpa using heq⟩
        · refine Or.inr ⟨m + 1, by simpa using hm, ?_⟩
          rw [heq]
          simp only [List.getD_cons_succ]
          congr 1
          omega
      · intro m' hm'
        match m' with
        | 0 => simpa using hk
        | m'' + 1 =>
          have := hmax m'' (by simpa using hm')
          simpa using this
    · obtain ⟨out, hout, hwhere, hk, hmax⟩ := ih (i + 1) j₀ k₀
      refine ⟨out, ?_, ?_, hk, ?_⟩
      · rw [show lastArgmaxAux (r :: rest) i (some (j₀, k₀)) =
            lastArgmaxAux rest (i + 1) (some (j₀, k₀)) from by
          simp [lastArgmaxAux, hle]]
        exact hout
      · rcases hwhere with heq | ⟨m, hm, heq⟩
        · exact Or.inl heq
        · refine Or.inr ⟨m + 1, by simpa using hm, ?_⟩
          rw [heq]
          simp only [List.getD_cons_succ]
          congr 1
          omega
      · intro m' hm'
        match m' with
        | 0 =>
          have : rgKey r < k₀ := by omega
          simp only [List.getD_cons_zero]
          omega
        | m'' + 1 =>
          have := hmax m'' (by simpa using hm')
          simpa using this

/-- On a nonempty list, `lastArgmax` yields a valid index whose key is
maximal. -/
theorem lastArgmax_spec (l : List Rg) (hne : l ≠ []) :
    ∃ v, lastArgmax l = some v ∧ v < l.length ∧
      ∀ m, m < l.length → rgKey (l.getD m ⟨0, 0⟩) ≤ rgKey (l.getD v ⟨0, 0⟩) := by
  match l with
  | [] => exact absurd rfl hne
  | r :: rest =>
    obtain ⟨out, hout, hwhere, hk, hmax⟩ := lastArgmaxAux_some_spec rest 1 0 (rgKey r)
    have hstep : lastArgmax (r :: rest) = some out.1 := by
      simp only [lastArgmax, lastArgmaxAux]
      rw [hout]
      rfl
    rcases hwhere with heq | ⟨m, hm, heq⟩
    · refine ⟨0, by rw [hstep, heq], by simp, ?_⟩
      intro m' hm'
      match m' with
      | 0 => exact Nat.le_refl _
      | m'' + 1 =>
        have h2 := hmax m'' (by simpa using hm')
        rw [heq] at h2
        simpa using h2
    · refine ⟨m + 1, ?_, by simpa using hm, ?_⟩
      · rw [hstep, heq]
        simp [Nat.add_comm]
      · intro m' hm'
        have hv : rgKey ((r :: rest).getD (m + 1) ⟨0, 0⟩) = out.2 := by
          rw [heq]
          simp only [List.getD_cons_succ]
        rw [hv]
        match m' with
        | 0 => simpa using hk
        | m'' + 1 =>
          have := hmax m'' (by simpa using hm')
          simpa using this

theorem getD_set_self (l : List Rg) (i : Nat) (a d : Rg) (h : i < l.length) :
    (l.set i a).getD i d = a := by
  induction l generalizing i with
  | nil => simp at h
  | cons x t ih =>
    match i with
    | 0 => rfl
    | j + 1 =>
      simp only [List.set_cons_succ, List.getD_cons_succ]
      exact ih j (by simpa using h)

theorem getD_set_ne (l : List Rg) (i j : Nat) (a d : Rg) (h : i ≠ j) :
    (l.set i a).getD j d = l.getD j d := by
  induction l generalizing i j with
  | nil => simp [List.set_nil]
  | cons x t ih =>
    match i, j with
    | 0, 0 => exact absurd rfl h
    | 0, jj + 1 => rfl
    | ii + 1, 0 => rfl
    | ii + 1, jj + 1 =>
      simp only [List.set_cons_succ, List.getD_cons_succ]
      exact ih ii jj (by omega)

/-- The body of the scheduler's success-completion branch
(`download_chunks`, `src/main.rs` lines 249–292): if the retry budget
is exhausted, do nothing; otherwise pick the last maximal live range;
if it is empty or splits into fewer than two parts, do nothing;
otherwise shrink the victim's `end` to `parts[0].end`, store
`parts[1]` under the completed worker's `task_id`, and spawn a worker
on it. Returns `none` where the source `unwrap()` would panic (empty
task table), otherwise the updated table and the optionally spawned
range. -/
def onTaskSuccess (taskId errorCount maxErrors : Nat)
    (taskRanges : List Rg) : Option (List Rg × Option Rg) :=
  if maxErrors ≤ errorCount then some (taskRanges, none)
  else
    match lastArgmax taskRanges with
    | none => none
    | some v =>
      let largest := taskRanges.getD v ⟨0, 0⟩
      if largest.start = largest.stop then some (taskRanges, none)
      else
        let parts := split_range largest 2 MIN_CHUNK_SIZE
        if parts.length < 2 then some (taskRanges, none)
        else
          let newVictim : Rg := ⟨largest.start, (parts.getD 0 ⟨0, 0⟩).stop⟩
          let newRange := parts.getD 1 ⟨0, 0⟩
          some ((taskRanges.set v newVictim).set taskId newRange,
            some newRange)

theorem getD_mem (l : List Rg) (m : Nat) (d : Rg) (h : m < l.length) :
    l.getD m d ∈ l := by
  induction l generalizing m with
  | nil => simp at h
  | cons x t ih =>
    match m with
    | 0 => exact List.mem_cons_self x t
    | j + 1 =>
      simp only [List.getD_cons_succ]
      exact List.mem_cons_of_mem x (ih j (by simpa using h))

/-- C1: on a successful worker completion with retries exhausted
(`error_count >= max_retries`) the task table is unchanged and no
worker is spawned; otherwise a live range `v` of maximal `end - start`
is selected and (a) if it is empty nothing is spawned, (b) if
`split_range(v, 2, MIN_CHUNK_SIZE)` yields fewer than two parts nothing
is spawned, and (c) otherwise the victim's `end` becomes
`parts[0].end`, `parts[1]` is stored under the completed worker's
`task_id`, and a worker is spawned on `parts[1]`. The hypotheses
reflect the scheduler's state at a completion event: a nonempty task
table of well-formed `u64` ranges whose entry for the completed
`task_id` has drained (`start = end`). -/
theorem c1_split_on_success (taskId errorCount maxErrors : Nat)
    (taskRanges : List Rg)
    (hne : taskRanges ≠ [])
    (hwf : ∀ r ∈ taskRanges, r.start ≤ r.stop ∧ r.stop < 2 ^ 64)
    (htid : taskId < taskRanges.length)
    (hdone : (taskRanges.getD taskId ⟨0, 0⟩).start =
      (taskRanges.getD taskId ⟨0, 0⟩).stop) :
    (maxErrors ≤ errorCount →
      onTaskSuccess taskId errorCount maxErrors taskRanges =
        some (taskRanges, none)) ∧
    (errorCount < maxErrors →
      ∃ v, v < taskRanges.length ∧
        (∀ m, m < taskRanges.length →
          (taskRanges.getD m ⟨0, 0⟩).stop - (taskRanges.getD m ⟨0, 0⟩).start ≤
            (taskRanges.getD v ⟨0, 0⟩).stop - (taskRanges.getD v ⟨0, 0⟩).start) ∧
        ((taskRanges.getD v ⟨0, 0⟩).start = (taskRanges.getD v ⟨0, 0⟩).stop →
          onTaskSuccess taskId errorCount maxErrors taskRanges =
            some (taskRanges, none)) ∧
        ((taskRanges.getD v ⟨0, 0⟩).start ≠ (taskRanges.getD v ⟨0, 0⟩).stop →
          (split_range (taskRanges.getD v ⟨0, 0⟩) 2 MIN_CHUNK_SIZE).length < 2 →
          onTaskSuccess taskId errorCount maxErrors taskRanges =
            some (taskRanges, none)) ∧
        ((taskRanges.getD v ⟨0, 0⟩).start ≠ (taskRanges.getD v ⟨0, 0⟩).stop →
          2 ≤ (split_range (taskRanges.getD v ⟨0, 0⟩) 2 MIN_CHUNK_SIZE).length →
          onTaskSuccess taskId errorCount maxErrors taskRanges =
            some ((taskRanges.set v
              ⟨(taskRanges.getD v ⟨0, 0⟩).start,
               ((split_range (taskRanges.getD v ⟨0, 0⟩) 2 MIN_CHUNK_SIZE).getD 0
                 ⟨0, 0⟩).stop⟩).set taskId
              ((split_range (taskRanges.getD v ⟨0, 0⟩) 2 MIN_CHUNK_SIZE).getD 1
                ⟨0, 0⟩),
              some ((split_range (taskRanges.getD v ⟨0, 0⟩) 2 MIN_CHUNK_SIZE).getD 1
                ⟨0, 0⟩)) ∧
          (((taskRanges.set v
              ⟨(taskRanges.getD v ⟨0, 0⟩).start,
               ((split_range (taskRanges.getD v ⟨0, 0⟩) 2 MIN_CHUNK_SIZE).getD 0
                 ⟨0, 0⟩).stop⟩).set taskId
              ((split_range (taskRanges.getD v ⟨0, 0⟩) 2 MIN_CHUNK_SIZE).getD 1
                ⟨0, 0⟩)).getD v ⟨0, 0⟩ =
            ⟨(taskRanges.getD v ⟨0, 0⟩).start,
             ((split_range (taskRanges.getD v ⟨0, 0⟩) 2 MIN_CHUNK_SIZE).getD 0
               ⟨0, 0⟩).stop⟩) ∧
          (((taskRanges.set v
              ⟨(taskRanges.getD v ⟨0, 0⟩).start,
               ((split_range (taskRanges.getD v ⟨0, 0⟩) 2 MIN_CHUNK_SIZE).getD 0
                 ⟨0, 0⟩).stop⟩).set taskId
              ((split_range (taskRanges.getD v ⟨0, 0⟩) 2 MIN_CHUNK_SIZE).getD 1
                ⟨0, 0⟩)).getD taskId ⟨0, 0⟩ =
            (split_range (taskRanges.getD v ⟨0, 0⟩) 2 MIN_CHUNK_SIZE).getD 1
              ⟨0, 0⟩))) := by
  constructor
  · intro h
    simp [onTaskSuccess, h]
  · intro hlt
    have hnle : ¬ (maxErrors ≤ errorCount) := by omega
    obtain ⟨v, hv, hvlt, hvmax⟩ := lastArgmax_spec taskRanges hne
    have hkey : ∀ m, m < taskRanges.length →
        rgKey (taskRanges.getD m ⟨0, 0⟩) =
          (taskRanges.getD m ⟨0, 0⟩).stop - (taskRanges.getD m ⟨0, 0⟩).start := by
      intro m hm
      have ⟨h1, h2⟩ := hwf _ (getD_mem taskRanges m ⟨0, 0⟩ hm)
      exact sub64_eq_sub _ _ h1 h2
    refine ⟨v, hvlt, ?_, ?_, ?_, ?_⟩
    · intro m hm
      have := hvmax m hm
      rw [hkey m hm, hkey v hvlt] at this
      exact this
    · intro hve
      simp only [onTaskSuccess, if_neg hnle, hv]
      rw [if_pos hve]
    · intro hve hsplit
      simp only [onTaskSuccess, if_neg hnle, hv]
      rw [if_neg hve, if_pos hsplit]
    · intro hve hsplit
      have hnsplit : ¬ ((split_range (taskRanges.getD v ⟨0, 0⟩) 2
          MIN_CHUNK_SIZE).length < 2) := by omega
      have hvne : v ≠ taskId := by
        intro hc
        rw [hc] at hve
        exact hve hdone
      refine ⟨?_, ?_, ?_⟩
      · simp only [onTaskSuccess, if_neg hnle, hv]
        rw [if_neg hve, if_neg hnsplit]
      · rw [getD_set_ne _ taskId v _ _ (fun hc => hvne hc.symm),
          getD_set_self _ v _ _ (by simpa using hvlt)]
      · rw [getD_set_self _ taskId _ _ (by simpa using htid)]

/-- Witness for C1: table `[[5, 5), [0, 4 MiB)]` with completed task 0;
the largest range `[0, 4 MiB)` is split in half, task 0 receives
`[2 MiB, 4 MiB)`, and the victim keeps `[0, 2 MiB)`. -/
theorem c1_witness :
    (3 ≤ 0 →
      onTaskSuccess 0 0 3 [⟨5, 5⟩, ⟨0, 4194304⟩] =
        some ([⟨5, 5⟩, ⟨0, 4194304⟩], none)) ∧
    (0 < 3 →
      ∃ v, v < ([(⟨5, 5⟩ : Rg), ⟨0, 4194304⟩]).length ∧
        (∀ m, m < ([(⟨5, 5⟩ : Rg), ⟨0, 4194304⟩]).length →
          (([(⟨5, 5⟩ : Rg), ⟨0, 4194304⟩]).getD m ⟨0, 0⟩).stop -
              (([(⟨5, 5⟩ : Rg), ⟨0, 4194304⟩]).getD m ⟨0, 0⟩).start ≤
            (([(⟨5, 5⟩ : Rg), ⟨0, 4194304⟩]).getD v ⟨0, 0⟩).stop -
              (([(⟨5, 5⟩ : Rg), ⟨0, 4194304⟩]).getD v ⟨0, 0⟩).start) ∧
        ((([(⟨5, 5⟩ : Rg), ⟨0, 4194304⟩]).getD v ⟨0, 0⟩).start =
            (([(⟨5, 5⟩ : Rg), ⟨0, 4194304⟩]).getD v ⟨0, 0⟩).stop →
          onTaskSuccess 0 0 3 [⟨5, 5⟩, ⟨0, 4194304⟩] =
            some ([⟨5, 5⟩, ⟨0, 4194304⟩], none)) ∧
        ((([(⟨5, 5⟩ : Rg), ⟨0, 4194304⟩]).getD v ⟨0, 0⟩).start ≠
            (([(⟨5, 5⟩ : Rg), ⟨0, 4194304⟩]).getD v ⟨0, 0⟩).stop →
          (split_range (([(⟨5, 5⟩ : Rg), ⟨0, 4194304⟩]).getD v ⟨0, 0⟩) 2
            MIN_CHUNK_SIZE).length < 2 →
          onTaskSuccess 0 0 3 [⟨5, 5⟩, ⟨0, 4194304⟩] =
            some ([⟨5, 5⟩, ⟨0, 4194304⟩], none)) ∧
        ((([(⟨5, 5⟩ : Rg), ⟨0, 4194304⟩]).getD v ⟨0, 0⟩).start ≠
            (([(⟨5, 5⟩ : Rg), ⟨0, 4194304⟩]).getD v ⟨0, 0⟩).stop →
          2 ≤ (split_range (([(⟨5, 5⟩ : Rg), ⟨0, 4194304⟩]).getD v ⟨0, 0⟩) 2
            MIN_CHUNK_SIZE).length →
          onTaskSuccess 0 0 3 [⟨5, 5⟩, ⟨0, 4194304⟩] =
            some ((([(⟨5, 5⟩ : Rg), ⟨0, 4194304⟩]).set v
              ⟨(([(⟨5, 5⟩ : Rg), ⟨0, 4194304⟩]).getD v ⟨0, 0⟩).start,
               ((split_range (([(⟨5, 5⟩ : Rg), ⟨0, 4194304⟩]).getD v ⟨0, 0⟩) 2
                 MIN_CHUNK_SIZE).getD 0 ⟨0, 0⟩).stop⟩).set 0
              ((split_range (([(⟨5, 5⟩ : Rg), ⟨0, 4194304⟩]).getD v ⟨0, 0⟩) 2
                MIN_CHUNK_SIZE).getD 1 ⟨0, 0⟩),
              some ((split_range (([(⟨5, 5⟩ : Rg), ⟨0, 4194304⟩]).getD v ⟨0, 0⟩) 2
                MIN_CHUNK_SIZE).getD 1 ⟨0, 0⟩)) ∧
          (((([(⟨5, 5⟩ : Rg), ⟨0, 4194304⟩]).set v
              ⟨(([(⟨5, 5⟩ : Rg), ⟨0, 4194304⟩]).getD v ⟨0, 0⟩).start,
               ((split_range (([(⟨5, 5⟩ : Rg), ⟨0, 4194304⟩]).getD v ⟨0, 0⟩) 2
                 MIN_CHUNK_SIZE).getD 0 ⟨0, 0⟩).stop⟩).set 0
              ((split_range (([(⟨5, 5⟩ : Rg), ⟨0, 4194304⟩]).getD v ⟨0, 0⟩) 2
                MIN_CHUNK_SIZE).getD 1 ⟨0, 0⟩)).getD v ⟨0, 0⟩ =
            ⟨(([(⟨5, 5⟩ : Rg), ⟨0, 4194304⟩]).getD v ⟨0, 0⟩).start,
             ((split_range (([(⟨5, 5⟩ : Rg), ⟨0, 4194304⟩]).getD v ⟨0, 0⟩) 2
               MIN_CHUNK_SIZE).getD 0 ⟨0, 0⟩).stop⟩) ∧
          (((([(⟨5, 5⟩ : Rg), ⟨0, 4194304⟩]).set v
              ⟨(([(⟨5, 5⟩ : Rg), ⟨0, 4194304⟩]).getD v ⟨0, 0⟩).start,
               ((split_range (([(⟨5, 5⟩ : Rg), ⟨0, 4194304⟩]).getD v ⟨0, 0⟩) 2
                 MIN_CHUNK_SIZE).getD 0 ⟨0, 0⟩).stop⟩).set 0
              ((split_range (([(⟨5, 5⟩ : Rg), ⟨0, 4194304⟩]).getD v ⟨0, 0⟩) 2
                MIN_CHUNK_SIZE).getD 1 ⟨0, 0⟩)).getD 0 ⟨0, 0⟩ =
            (split_range (([(⟨5, 5⟩ : Rg), ⟨0, 4194304⟩]).getD v ⟨0, 0⟩) 2
              MIN_CHUNK_SIZE).getD 1 ⟨0, 0⟩))) :=
  c1_split_on_success 0 0 3 [⟨5, 5⟩, ⟨0, 4194304⟩] (by decide) (by decide)
    (by decide) (by decide)

/-- Combined state of one worker (`download_range`) and its scheduler
entry in `task_ranges`: the worker's local range `[wstart, wend)`
(`src/main.rs` lines 110–152), the scheduler's view `[sstart, ssend)`
(`task_ranges[task_id]`, lines 228–231), the consumed byte count of an
unanswered progress message, and the log of reply `end` values (newest
first). -/
structure WSt where
  wstart : Nat
  wend : Nat
  sstart : Nat
  ssend : Nat
  inFlight : Option Nat
  replies : List Nat
deriving DecidableEq, Repr

/-- Events touching one worker's range: the worker consumes a fragment
of `len` bytes and posts a progress message (lines 112–143); the
scheduler splits this entry as the largest live range when another
worker completes (lines 262–278); the scheduler processes the pending
progress message and replies with the entry's current `end` (lines
221–231), which the worker adopts (lines 146–151). -/
inductive WEvent where
  | frag (len : Nat)
  | splitEv
  | procMsg
deriving DecidableEq, Repr

/-- One interleaving step; `none` when the event is not enabled. -/
def wstep (s : WSt) (e : WEvent) : Option WSt :=
  match e with
  | .frag len =>
    match s.inFlight with
    | some _ => none
    | none =>
      if s.wstart < s.wend then
        let consumed := min (s.wend - s.wstart) len
        some { s with wstart := s.wstart + consumed, inFlight := some consumed }
      else none
  | .splitEv =>
    if s.sstart < s.ssend then
      let parts := split_range ⟨s.sstart, s.ssend⟩ 2 MIN_CHUNK_SIZE
      if 2 ≤ parts.length then
        some { s with ssend := (parts.getD 0 ⟨0, 0⟩).stop }
      else none
    else none
  | .procMsg =>
    match s.inFlight with
    | none => none
    | some c =>
      some ⟨s.wstart, s.ssend, s.sstart + c, s.ssend, none,
        s.ssend :: s.replies⟩

/-- Run a sequence of events. -/
def wrun (s : WSt) (evs : List WEvent) : Option WSt :=
  match evs with
  | [] => some s
  | e :: rest =>
    match wstep s e with
    | none => none
    | some s2 => wrun s2 rest

/-- A worker's spawn state: its local range agrees with the scheduler
entry, is well-formed, and nothing is pending. -/
def goodInit (s : WSt) : Prop :=
  s.wstart = s.sstart ∧ s.wend = s.ssend ∧ s.wstart ≤ s.wend ∧
  s.inFlight = none ∧ s.replies = []

/-- Fragments of at most `MIN_CHUNK_SIZE` bytes. -/
def fragBounded : WEvent → Prop
  | .frag len => len ≤ MIN_CHUNK_SIZE
  | .splitEv => True
  | .procMsg => True

/-- Unconditional invariant: the scheduler entry's `end` is below every
reply already issued, and the reply log (newest first) is a
`≤`-chain. -/
def replyInv (s : WSt) : Prop :=
  (∀ r ∈ s.replies, s.ssend ≤ r) ∧
  List.Chain' (fun a b => a ≤ b) s.replies

/-- Synchronization invariant, maintained when fragments are bounded by
`MIN_CHUNK_SIZE`. -/
def syncInv (s : WSt) : Prop :=
  s.sstart ≤ s.ssend ∧ s.ssend ≤ s.wend ∧
  (s.ssend = s.wend ∨ s.sstart + MIN_CHUNK_SIZE ≤ s.ssend) ∧
  (match s.inFlight with
   | none => s.wstart = s.sstart ∧ s.wstart ≤ s.wend
   | some c => c ≤ MIN_CHUNK_SIZE ∧ s.wstart = s.sstart + c ∧
       s.wstart ≤ s.wend)

/-- A split only shrinks the scheduler entry's `end`, and by at least
down to `sstart + MIN_CHUNK_SIZE`. -/
theorem splitEv_bounds (s s' : WSt) (h : wstep s .splitEv = some s') :
    s.sstart < s.ssend ∧
    s.sstart + MIN_CHUNK_SIZE ≤ s'.ssend ∧ s'.ssend ≤ s.ssend ∧
    s'.wstart = s.wstart ∧ s'.wend = s.wend ∧ s'.sstart = s.sstart ∧
    s'.inFlight = s.inFlight ∧ s'.replies = s.replies := by
  simp only [wstep] at h
  by_cases hg : s.sstart < s.ssend
  · rw [if_pos hg] at h
    by_cases hp : 2 ≤ (split_range ⟨s.sstart, s.ssend⟩ 2 MIN_CHUNK_SIZE).length
    · rw [if_pos hp] at h
      have hlen : 2 * MIN_CHUNK_SIZE ≤ s.ssend - s.sstart := by
        have := split_range_two_parts ⟨s.sstart, s.ssend⟩ 2 MIN_CHUNK_SIZE hp
        simpa using this
      have htwo := split_range_two ⟨s.sstart, s.ssend⟩ MIN_CHUNK_SIZE
        (by simp [MIN_CHUNK_SIZE]) (by simpa using hlen)
      rw [htwo] at h
      simp only [List.getD_cons_zero] at h
      obtain rfl := Option.some_inj.1 h
      refine ⟨hg, ?_, ?_, rfl, rfl, rfl, rfl, rfl⟩
      · show s.sstart + MIN_CHUNK_SIZE ≤ s.sstart + (s.ssend - s.sstart) / 2
        omega
      · show s.sstart + (s.ssend - s.sstart) / 2 ≤ s.ssend
        omega
    · rw [if_neg hp] at h
      exact absurd h (by simp)
  · rw [if_neg hg] at h
    exact absurd h (by simp)

theorem replyInv_step (s s' : WSt) (e : WEvent) (hinv : replyInv s)
    (h : wstep s e = some s') : replyInv s' := by
  obtain ⟨hall, hchain⟩ := hinv
  match e with
  | .frag len =>
    rcases hif : s.inFlight with _ | c
    · simp only [wstep, hif] at h
      by_cases hg : s.wstart < s.wend
      · rw [if_pos hg] at h
        obtain rfl := Option.some_inj.1 h
        exact ⟨hall, hchain⟩
      · rw [if_neg hg] at h
        exact absurd h (by simp)
    · simp only [wstep, hif] at h
      exact Option.noConfusion h
  | .splitEv =>
    obtain ⟨_, _, hle, _, _, _, _, hrep⟩ := splitEv_bounds s s' h
    constructor
    · intro r hr
      rw [hrep] at hr
      exact Nat.le_trans hle (hall r hr)
    · rw [hrep]
      exact hchain
  | .procMsg =>
    rcases hif : s.inFlight with _ | c
    · simp only [wstep, hif] at h
      exact Option.noConfusion h
    · simp only [wstep, hif] at h
      obtain rfl := Option.some_inj.1 h
      constructor
      · intro r hr
        rcases List.mem_cons.1 hr with rfl | hr'
        · exact Nat.le_refl _
        · exact hall r hr'
      · rw [show (⟨s.wstart, s.ssend, s.sstart + c, s.ssend, none,
            s.ssend :: s.replies⟩ : WSt).replies =
            s.ssend :: s.replies from rfl]
        rw [List.chain'_cons']
        refine ⟨?_, hchain⟩
        intro y hy
        exact hall y (List.mem_of_mem_head? hy)

theorem syncInv_step (s s' : WSt) (e : WEvent) (hinv : syncInv s)
    (hb : fragBounded e) (h : wstep s e = some s') : syncInv s' := by
  obtain ⟨h1, h2, h3, h4⟩ := hinv
  match e with
  | .frag len =>
    rcases hif : s.inFlight with _ | c
    · simp only [wstep, hif] at h
      by_cases hg : s.wstart < s.wend
      · rw [if_pos hg] at h
        rw [hif] at h4
        simp only at h4
        obtain ⟨h5, h6⟩ := h4
        obtain rfl := Option.some_inj.1 h
        simp only [fragBounded] at hb
        refine ⟨h1, h2, h3, ?_, ?_, ?_⟩
        · show min (s.wend - s.wstart) len ≤ MIN_CHUNK_SIZE
          omega
        · show s.wstart + min (s.wend - s.wstart) len =
            s.sstart + min (s.wend - s.wstart) len
          omega
        · show s.wstart + min (s.wend - s.wstart) len ≤ s.wend
          omega
      · rw [if_neg hg] at h
        exact absurd h (by simp)
    · simp only [wstep, hif] at h
      exact Option.noConfusion h
  | .splitEv =>
    obtain ⟨hg, hmin, hle, hw, hwe, hs, hifl, _⟩ := splitEv_bounds s s' h
    refine ⟨by omega, by omega, Or.inr (by omega), ?_⟩
    rw [hifl]
    rcases hif : s.inFlight with _ | c
    · rw [hif] at h4
      simp only at h4 ⊢
      omega
    · rw [hif] at h4
      simp only at h4 ⊢
      omega
  | .procMsg =>
    rcases hif : s.inFlight with _ | c
    · simp only [wstep, hif] at h
      exact Option.noConfusion h
    · simp only [wstep, hif] at h
      rw [hif] at h4
      simp only at h4
      obtain ⟨hc, hw, hwe⟩ := h4
      have hnew : s.sstart + c ≤ s.ssend := by
        rcases h3 with he | hm
        · omega
        · omega
      obtain rfl := Option.some_inj.1 h
      refine ⟨hnew, Nat.le_refl _, Or.inl rfl, ?_⟩
      simp only
      omega

theorem wrun_replyInv (evs : List WEvent) :
    ∀ (s s' : WSt), replyInv s → wrun s evs = some s' → replyInv s' := by
  induction evs with
  | nil =>
    intro s s' hinv h
    simp only [wrun] at h
    rw [← Option.some_inj.1 h]
    exact hinv
  | cons e rest ih =>
    intro s s' hinv h
    simp only [wrun] at h
    match hs : wstep s e with
    | none =>
      rw [hs] at h
      exact absurd h (by simp)
    | some s2 =>
      rw [hs] at h
      exact ih s2 s' (replyInv_step s s2 e hinv hs) h

theorem wrun_syncInv (evs : List WEvent) :
    ∀ (s s' : WSt), syncInv s → (∀ e ∈ evs, fragBounded e) →
      wrun s evs = some s' → syncInv s' := by
  induction evs with
  | nil =>
    intro s s' hinv _ h
    simp only [wrun] at h
    rw [← Option.some_inj.1 h]
    exact hinv
  | cons e rest ih =>
    intro s s' hinv hb h
    simp only [wrun] at h
    match hs : wstep s e with
    | none =>
      rw [hs] at h
      exact absurd h (by simp)
    | some s2 =>
      rw [hs] at h
      exact ih s2 s'
        (syncInv_step s s2 e hinv (hb e (List.mem_cons_self e rest)) hs)
        (fun e' he' => hb e' (List.mem_cons_of_mem e he')) h

/-- C4 (amended): along any interleaving of the progress protocol from
a synchronized spawn state, the `end` values carried by the
scheduler's replies are monotonically non-increasing (`replies` is
newest-first, so adjacent entries satisfy `≤`); and provided every
received fragment is at most `MIN_CHUNK_SIZE` bytes, the worker's
range satisfies `start ≤ end` whenever no progress message is pending,
i.e. between loop iterations. (Without the fragment bound an oversized
fragment racing a concurrent split can leave `start > end`; see the
counterexample.) -/
theorem c4_replies_monotone (init : WSt) (evs : List WEvent) (s : WSt)
    (hinit : goodInit init) (hrun : wrun init evs = some s) :
    List.Chain' (fun a b => a ≤ b) s.replies ∧
    ((∀ e ∈ evs, fragBounded e) → s.inFlight = none →
      s.wstart ≤ s.wend) := by
  obtain ⟨hi1, hi2, hi3, hi4, hi5⟩ := hinit
  constructor
  · have hinv : replyInv init := by
      constructor
      · intro r hr
        rw [hi5] at hr
        simp at hr
      · rw [hi5]
        exact List.chain'_nil
    exact (wrun_replyInv evs init s hinv hrun).2
  · intro hb hifl
    have hinv : syncInv init := by
      refine ⟨by omega, by omega, Or.inl hi2.symm, ?_⟩
      rw [hi4]
      simp only
      exact ⟨hi1, hi3⟩
    have hfin := wrun_syncInv evs init s hinv hb hrun
    obtain ⟨_, _, _, h4⟩ := hfin
    rw [hifl] at h4
    simp only at h4
    exact h4.2

/-- C4 counterexample: a worker on `[0, 4 MiB)` receives a 3 MiB
fragment (oversized relative to `MIN_CHUNK_SIZE`) and advances its
local `start` to 3 MiB before the scheduler processes the message;
meanwhile another worker's completion splits the entry down to
`[0, 2 MiB)`; the reply then carries `end = 2 MiB < start = 3 MiB`, so
between loop iterations (no message pending) the worker's range has
`start > end`, refuting the claim that `start ≤ end` holds at all
times. -/
theorem c4_counterexample :
    goodInit ⟨0, 4194304, 0, 4194304, none, []⟩ ∧
    wrun ⟨0, 4194304, 0, 4194304, none, []⟩
      [.frag 3145728, .splitEv, .procMsg] =
      some ⟨3145728, 2097152, 3145728, 2097152, none, [2097152]⟩ ∧
    (⟨3145728, 2097152, 3145728, 2097152, none,
      [2097152]⟩ : WSt).inFlight = none ∧
    2097152 < 3145728 := by
  refine ⟨⟨rfl, rfl, by decide, rfl, rfl⟩, by decide, rfl, by decide⟩

/-- Witness for C4: a bounded run — fragment of 100 bytes on
`[0, 2 MiB)` followed by the scheduler's reply — keeps the reply chain
monotone and `start ≤ end`. -/
theorem c4_witness :
    List.Chain' (fun a b => a ≤ b)
      ((⟨100, 2097152, 100, 2097152, none, [2097152]⟩ : WSt).replies) ∧
    ((∀ e ∈ [WEvent.frag 100, WEvent.procMsg], fragBounded e) →
      (⟨100, 2097152, 100, 2097152, none, [2097152]⟩ : WSt).inFlight = none →
      (⟨100, 2097152, 100, 2097152, none, [2097152]⟩ : WSt).wstart ≤
        (⟨100, 2097152, 100, 2097152, none, [2097152]⟩ : WSt).wend) :=
  c4_replies_monotone ⟨0, 2097152, 0, 2097152, none, []⟩
    [.frag 100, .procMsg] ⟨100, 2097152, 100, 2097152, none, [2097152]⟩
    ⟨rfl, rfl, by decide, rfl, rfl⟩ (by decide)
